import Mathlib

/-!
Verification development for the diff-to-prompt pipeline of the aicommit
repository.  The TypeScript sources (src/lib/diff-parser.ts, src/lib/semantic.ts,
src/lib/ai.ts) are shallowly embedded: JavaScript string and array operations
are modelled by explicit executable functions over Lean strings and lists, and
each function of the pipeline is translated definition by definition.
-/

namespace AICommit

/-- Models the JavaScript expression s.startsWith(pre). -/
def jsStartsWith (s pre : String) : Bool :=
  pre.data.isPrefixOf s.data

/-- Models the JavaScript expression s.endsWith(suf). -/
def jsEndsWith (s suf : String) : Bool :=
  suf.data.isSuffixOf s.data

/-- Models the JavaScript expression s.includes(sub): substring containment. -/
def jsIncludes (s sub : String) : Bool :=
  decide (sub.data <:+: s.data)

/-- Character-level worker for `splitNl`: splits a character list at every
newline character, always returning at least one (possibly empty) piece,
exactly like the JavaScript split. -/
def splitNlChars : List Char → List (List Char)
  | [] => [[]]
  | c :: rest =>
    let r := splitNlChars rest
    if c = '\n' then [] :: r else (c :: r.headD []) :: r.tail

/-- Models the JavaScript expression s.split(newline): the list of segments of
`s` between newline characters (a string with `k` newlines yields `k + 1`
segments, empty segments included). -/
def splitNl (s : String) : List String :=
  (splitNlChars s.data).map (fun l => ⟨l⟩)

/-- Models the JavaScript expression arr.join(sep). -/
def jsJoin (sep : String) : List String → String
  | [] => ""
  | [s] => s
  | s :: rest => s ++ sep ++ jsJoin sep rest

/-- Models the JavaScript expression arr.slice(-t) on an array of lines:
for positive `t` the last `t` elements (the whole array when `t` exceeds its
length); JavaScript treats slice(-0) as slice(0), i.e. the whole array. -/
def jsSliceNeg (l : List String) (t : Nat) : List String :=
  if t = 0 then l else l.drop (l.length - t)

/-- Models the JavaScript expression s.slice(n) on a string: drop the first
`n` characters. -/
def jsSliceFrom (s : String) (n : Nat) : String :=
  ⟨s.data.drop n⟩

/-- Models the JavaScript spread of a Set built from a list,
`[...new Set(l)]`: keeps the first occurrence of each element, in order,
and drops every later duplicate. -/
def jsSetDedup : List String → List String
  | [] => []
  | x :: xs => x :: jsSetDedup (xs.filter (fun y => y ≠ x))
termination_by l => l.length
decreasing_by
  simp only [List.length_cons]
  exact Nat.lt_succ_of_le (List.length_filter_le _ _)

/- Basic facts about the primitives. -/

theorem splitNlChars_ne_nil (cs : List Char) : splitNlChars cs ≠ [] := by
  cases cs with
  | nil => simp [splitNlChars]
  | cons c rest =>
    simp only [splitNlChars]
    by_cases h : c = '\n' <;> simp [h]

theorem splitNlChars_nil : splitNlChars [] = [[]] := rfl

theorem splitNlChars_cons_nl (rest : List Char) :
    splitNlChars ('\n' :: rest) = [] :: splitNlChars rest := by
  simp [splitNlChars]

theorem splitNlChars_cons (c : Char) (rest : List Char) (h : c ≠ '\n') :
    splitNlChars (c :: rest) =
      (c :: (splitNlChars rest).headD []) :: (splitNlChars rest).tail := by
  simp [splitNlChars, h]

theorem splitNlChars_length_append (xs ys : List Char) :
    (splitNlChars (xs ++ ys)).length + 1 =
      (splitNlChars xs).length + (splitNlChars ys).length := by
  induction xs with
  | nil => simp [splitNlChars]; omega
  | cons c xs ih =>
    by_cases h : c = '\n'
    · subst h
      simp only [List.cons_append, splitNlChars_cons_nl, List.length_cons]
      omega
    · simp only [List.cons_append, splitNlChars_cons _ _ h, List.length_cons]
      have h1 := splitNlChars_ne_nil (xs ++ ys)
      have h2 := splitNlChars_ne_nil xs
      have l1 : (splitNlChars (xs ++ ys)).tail.length + 1 =
          (splitNlChars (xs ++ ys)).length := by
        cases hx : splitNlChars (xs ++ ys) with
        | nil => exact absurd hx h1
        | cons a as => simp
      have l2 : (splitNlChars xs).tail.length + 1 = (splitNlChars xs).length := by
        cases hx : splitNlChars xs with
        | nil => exact absurd hx h2
        | cons a as => simp
      omega

theorem splitNlChars_no_newline (cs : List Char) :
    ∀ p ∈ splitNlChars cs, '\n' ∉ p := by
  induction cs with
  | nil => intro p hp; simp [splitNlChars] at hp; simp [hp]
  | cons c rest ih =>
    intro p hp
    by_cases h : c = '\n'
    · subst h
      rw [splitNlChars_cons_nl] at hp
      rcases List.mem_cons.mp hp with hp | hp
      · simp [hp]
      · exact ih p hp
    · rw [splitNlChars_cons _ _ h] at hp
      rcases List.mem_cons.mp hp with hp | hp
      · subst hp
        intro hmem
        have hhead : (splitNlChars rest).headD [] ∈ splitNlChars rest := by
          cases hx : splitNlChars rest with
          | nil => exact absurd hx (splitNlChars_ne_nil rest)
          | cons a as => simp
        rcases List.mem_cons.mp hmem with hc | hc
        · exact h hc.symm
        · exact ih _ hhead hc
      · have : p ∈ splitNlChars rest := List.mem_of_mem_tail hp
        exact ih p this

theorem stringMk_data (s : String) : (⟨s.data⟩ : String) = s := by
  cases s
  rfl

theorem data_stringMk (l : List Char) : (⟨l⟩ : String).data = l := rfl

theorem splitNlChars_append_no_nl (xs ys : List Char) (h : '\n' ∉ xs) :
    splitNlChars (xs ++ ys) =
      (xs ++ (splitNlChars ys).headD []) :: (splitNlChars ys).tail := by
  induction xs with
  | nil =>
    simp only [List.nil_append]
    cases hx : splitNlChars ys with
    | nil => exact absurd hx (splitNlChars_ne_nil ys)
    | cons a as => simp
  | cons c xs ih =>
    have hc : c ≠ '\n' := by
      intro hc
      exact h (by simp [hc])
    have hxs : '\n' ∉ xs := by
      intro hm
      exact h (by simp [hm])
    rw [List.cons_append, splitNlChars_cons _ _ hc, ih hxs]
    simp

theorem splitNlChars_append_nl (xs ys : List Char) (h : '\n' ∉ xs) :
    splitNlChars (xs ++ '\n' :: ys) = xs :: splitNlChars ys := by
  rw [splitNlChars_append_no_nl xs ('\n' :: ys) h, splitNlChars_cons_nl]
  simp

theorem splitNl_no_nl_of_no_nl (s : String) (h : '\n' ∉ s.data) :
    splitNl s = [s] := by
  unfold splitNl
  have := splitNlChars_append_no_nl s.data [] h
  simp only [List.append_nil, splitNlChars_nil] at this
  rw [this]
  simp [stringMk_data]

theorem data_append3 (a b c : String) :
    (a ++ b ++ c).data = a.data ++ b.data ++ c.data := by
  rw [String.data_append, String.data_append]

theorem jsJoin_cons_cons (sep a b : String) (l : List String) :
    jsJoin sep (a :: b :: l) = a ++ sep ++ jsJoin sep (b :: l) := rfl

theorem jsJoin_single (sep a : String) : jsJoin sep [a] = a := rfl

/-- Splitting on newlines is a left inverse of joining with newlines, for
nonempty lists of newline-free pieces. -/
theorem splitNl_jsJoin (L : List String) (hne : L ≠ [])
    (h : ∀ p ∈ L, '\n' ∉ (p : String).data) : splitNl (jsJoin "\n" L) = L := by
  induction L with
  | nil => exact absurd rfl hne
  | cons p rest ih =>
    cases rest with
    | nil =>
      rw [jsJoin_single]
      exact splitNl_no_nl_of_no_nl p (h p (by simp))
    | cons q rest2 =>
      rw [jsJoin_cons_cons]
      unfold splitNl
      rw [data_append3]
      have hnl : ("\n" : String).data = ['\n'] := rfl
      rw [hnl, List.append_assoc, List.cons_append, List.nil_append]
      rw [splitNlChars_append_nl _ _ (h p (by simp))]
      simp only [List.map_cons, stringMk_data]
      have := ih (by simp) (fun x hx => h x (by simp [hx]))
      unfold splitNl at this
      rw [this]

/-- Joining `k` pieces with newlines yields a string with at least `k`
newline-separated segments (more when the pieces themselves hold newlines). -/
theorem length_le_splitNl_jsJoin (L : List String) (hne : L ≠ []) :
    L.length ≤ (splitNl (jsJoin "\n" L)).length := by
  induction L with
  | nil => exact absurd rfl hne
  | cons p rest ih =>
    cases rest with
    | nil =>
      rw [jsJoin_single]
      unfold splitNl
      simp only [List.length_map, List.length_cons, List.length_nil]
      have := List.length_pos.mpr (splitNlChars_ne_nil p.data)
      omega
    | cons q rest2 =>
      rw [jsJoin_cons_cons]
      unfold splitNl
      rw [data_append3]
      have hnl : ("\n" : String).data = ['\n'] := rfl
      rw [hnl, List.append_assoc, List.cons_append, List.nil_append]
      simp only [List.length_map, List.length_cons]
      have hlen := splitNlChars_length_append p.data
        ('\n' :: (jsJoin "\n" (q :: rest2)).data)
      rw [splitNlChars_cons_nl] at hlen
      simp only [List.length_cons] at hlen
      have h1 : 1 ≤ (splitNlChars p.data).length :=
        List.length_pos.mpr (splitNlChars_ne_nil p.data)
      have h2 := ih (by simp)
      unfold splitNl at h2
      simp only [List.length_map, List.length_cons] at h2
      omega

/- Data model, from src/types.ts. -/

/-- Change kind of a file record, from the union type in src/types.ts. -/
inductive FileStatus where
  | added
  | modified
  | deleted
  | renamed
deriving DecidableEq

/-- One per-file diff record, from the FileDiff interface in src/types.ts. -/
structure FileDiff where
  path : String
  oldPath : Option String
  status : FileStatus
  diff : String
  additions : Nat
  deletions : Nat
deriving DecidableEq

/-- Full parse output, from the ParsedDiff interface in src/types.ts. -/
structure ParsedDiff where
  files : List FileDiff
  totalAdditions : Nat
  totalDeletions : Nat
deriving DecidableEq

/-- Classification output, from the ClassifiedFiles interface in src/types.ts. -/
structure ClassifiedFiles where
  included : List FileDiff
  summarized : List FileDiff
  excluded : List FileDiff
deriving DecidableEq

/-- Semantic extraction output, from the SemanticInfo interface in
src/types.ts. -/
structure SemanticInfo where
  functions : List String
  types : List String
  exports : List String
  classes : List String
deriving DecidableEq

/- Diff parser, from src/lib/diff-parser.ts. -/

/-- Worker for `matchPaths`: models the lazy group of the header regex.  Having
consumed the literal prefix, the first capture group grows one character at a
time (it must be nonempty) until the literal gap follows with at least one
character after it; the second, greedy group then takes everything to the end
of the line. -/
def lazyPathSplit (acc : List Char) : List Char → Option (String × String)
  | [] => none
  | c :: rest =>
    if (" b/" : String).data.isPrefixOf rest && decide (3 < rest.length) then
      some (⟨acc ++ [c]⟩, ⟨rest.drop 3⟩)
    else lazyPathSplit (acc ++ [c]) rest

/-- Models the JavaScript expression headerLine.match of the header regex that
captures the two paths from the shape a/oldPath b/newPath: the regex engine
tries each start position from the left; at a position starting with the
literal a/ it runs the lazy capture, and on failure restarts one character
further right. -/
def matchPaths : List Char → Option (String × String)
  | [] => none
  | c :: rest =>
    if c = 'a' then
      match rest with
      | '/' :: rest2 =>
        (match lazyPathSplit [] rest2 with
         | some r => some r
         | none => matchPaths rest)
      | _ => matchPaths rest
    else matchPaths rest

/-- Status determination from the diff block metadata, inlined in
parseUnifiedDiff in the source: the checks are applied in this order. -/
def determineStatus (diffContent oldPath newPath : String) : FileStatus :=
  if jsIncludes diffContent "new file mode" then FileStatus.added
  else if jsIncludes diffContent "deleted file mode" then FileStatus.deleted
  else if jsIncludes diffContent "rename from" || decide (oldPath ≠ newPath) then
    FileStatus.renamed
  else FileStatus.modified

/-- Worker for `splitDiffBlocks`: groups the lines of the input; each line
beginning with the file-boundary marker starts a new group with the marker
stripped, and the first group holds the lines before the first marker. -/
def splitBlocksLines : List String → List (List String)
  | [] => [[]]
  | l :: rest =>
    let gs := splitBlocksLines rest
    if jsStartsWith l "diff --git " then
      [] :: (jsSliceFrom l 11 :: gs.headD []) :: gs.tail
    else
      (l :: gs.headD []) :: gs.tail

/-- Worker for `splitDiffBlocks`: turns each line group back into one string;
every group except the last is followed in the input by a marker line, whose
preceding newline belongs to the group, hence the trailing empty segment. -/
def blockPieces : List (List String) → List String
  | [] => []
  | [g] => [jsJoin "\n" g]
  | g :: gs => jsJoin "\n" (g ++ [""]) :: blockPieces gs

/-- Models the JavaScript split of the diff output on the multiline-anchored
literal regex matching "diff --git " at the start of a line, followed by
filter(Boolean) which drops empty pieces. -/
def splitDiffBlocks (s : String) : List String :=
  (blockPieces (splitBlocksLines (splitNl s))).filter (fun p => p ≠ "")

/-- Body of the per-block loop of parseUnifiedDiff: extracts paths from the
first line (skipping the block when the header regex fails), determines the
status, and counts added and removed content lines. -/
def parseBlock (fileDiff : String) : Option FileDiff :=
  let lines := splitNl fileDiff
  let headerLine := (lines.headD "")
  match matchPaths headerLine.data with
  | none => none
  | some (oldPath, newPath) =>
    let status := determineStatus fileDiff oldPath newPath
    let additions :=
      (lines.filter (fun l => jsStartsWith l "+" && !(jsStartsWith l "+++"))).length
    let deletions :=
      (lines.filter (fun l => jsStartsWith l "-" && !(jsStartsWith l "---"))).length
    some { additions := additions
           deletions := deletions
           diff := "diff --git " ++ fileDiff
           oldPath := if status = FileStatus.renamed then some oldPath else none
           path := newPath
           status := status }

/-- The per-block loop of parseUnifiedDiff: pushes each successfully parsed
record and accumulates the two running totals. -/
def parseLoop : List String → ParsedDiff
  | [] => { files := [], totalAdditions := 0, totalDeletions := 0 }
  | b :: rest =>
    let r := parseLoop rest
    match parseBlock b with
    | none => r
    | some fd =>
      { files := fd :: r.files
        totalAdditions := fd.additions + r.totalAdditions
        totalDeletions := fd.deletions + r.totalDeletions }

/-- Models parseUnifiedDiff from src/lib/diff-parser.ts. -/
def parseUnifiedDiff (diffOutput : String) : ParsedDiff :=
  parseLoop (splitDiffBlocks diffOutput)

/- File classifier, from src/lib/diff-parser.ts. -/

/-- Models the EXCLUDED_PATTERNS regex list: each entry is the test of one
regex against a path (suffix tests for the end-anchored patterns, containment
tests for the directory patterns). -/
def EXCLUDED_PATTERNS : List (String → Bool) :=
  [ fun p => jsEndsWith p "bun.lock"
  , fun p => jsEndsWith p "package-lock.json"
  , fun p => jsEndsWith p "yarn.lock"
  , fun p => jsEndsWith p "pnpm-lock.yaml"
  , fun p => jsEndsWith p "uv.lock"
  , fun p => jsEndsWith p ".png" || jsEndsWith p ".jpg" || jsEndsWith p ".jpeg" ||
      jsEndsWith p ".gif" || jsEndsWith p ".ico" || jsEndsWith p ".webp" ||
      jsEndsWith p ".svg"
  , fun p => jsEndsWith p ".woff" || jsEndsWith p ".woff2" || jsEndsWith p ".ttf" ||
      jsEndsWith p ".eot" || jsEndsWith p ".otf"
  , fun p => jsEndsWith p ".mp3" || jsEndsWith p ".mp4" || jsEndsWith p ".wav" ||
      jsEndsWith p ".webm"
  , fun p => jsEndsWith p ".DS_Store"
  , fun p => jsEndsWith p ".map"
  , fun p => jsEndsWith p ".tsbuildinfo"
  , fun p => jsIncludes p "dist/"
  , fun p => jsIncludes p "build/"
  , fun p => jsIncludes p ".expo/"
  , fun p => jsIncludes p "node_modules/" ]

/-- Models SUMMARY_ONLY_PATTERNS, which is empty in the source. -/
def SUMMARY_ONLY_PATTERNS : List (String → Bool) := []

/-- Test of a path against the exclusion pattern list, as in the classifier
condition EXCLUDED_PATTERNS.some(p leads to p.test(file.path)). -/
def isExcludedPath (path : String) : Bool :=
  EXCLUDED_PATTERNS.any (fun p => p path)

/-- Test of a path against the summary-only pattern list. -/
def isSummaryOnlyPath (path : String) : Bool :=
  SUMMARY_ONLY_PATTERNS.any (fun p => p path)

/-- Models classifyFiles from src/lib/diff-parser.ts: one pass over the
records, appending each to exactly one of the three buckets. -/
def classifyFiles : List FileDiff → ClassifiedFiles
  | [] => { included := [], summarized := [], excluded := [] }
  | f :: rest =>
    let r := classifyFiles rest
    if isExcludedPath f.path then
      { included := r.included, summarized := r.summarized, excluded := f :: r.excluded }
    else if isSummaryOnlyPath f.path then
      { included := r.included, summarized := f :: r.summarized, excluded := r.excluded }
    else
      { included := f :: r.included, summarized := r.summarized, excluded := r.excluded }

/- Diff compressor, from src/lib/diff-parser.ts. -/

/-- Per-file line budget (MAX_LINES_PER_FILE in the source). -/
def MAX_LINES_PER_FILE : Nat := 50

/-- Global line budget (MAX_TOTAL_DIFF_LINES in the source). -/
def MAX_TOTAL_DIFF_LINES : Nat := 1500

/-- Models truncateDiff from src/lib/diff-parser.ts.  The source computes the
head share as Math.floor(maxLines * 0.7) on floating-point numbers; for every
maxLines the compressor can pass (1 to 50) that equals maxLines * 7 / 10 in
natural division, which is used here. -/
def truncateDiff (diff : String) (maxLines : Nat) : String :=
  let lines := splitNl diff
  if lines.length ≤ maxLines then diff
  else
    let headLines := maxLines * 7 / 10
    let tailLines := maxLines - headLines
    let omitted := lines.length - maxLines
    jsJoin "\n"
      (lines.take headLines ++
        ["... [" ++ toString omitted ++ " lines omitted] ..."] ++
        jsSliceNeg lines tailLines)

/-- Loop of compressDiffs: walks the file records in order, carrying the
accumulator totalLines of lines emitted so far, and produces the list of
per-file emissions that the source later joins with blank lines.  In the
source fileBudget is at most 0 exactly when totalLines has reached
MAX_TOTAL_DIFF_LINES. -/
def compressDiffsAux : List FileDiff → Nat → List String
  | [], _ => []
  | f :: rest, totalLines =>
    if f.status = FileStatus.deleted then
      ("--- " ++ f.path ++ " (deleted)") :: compressDiffsAux rest totalLines
    else
      let remainingBudget : Int := (MAX_TOTAL_DIFF_LINES : Int) - (totalLines : Int)
      let fileBudget : Int := min (MAX_LINES_PER_FILE : Int) remainingBudget
      if fileBudget ≤ 0 then
        ("--- " ++ f.path ++ " (omitted)") :: compressDiffsAux rest totalLines
      else
        let truncated := truncateDiff f.diff fileBudget.toNat
        let emitted := (splitNl truncated).length
        let header :=
          match f.oldPath with
          | some op => if op ≠ "" then op ++ " -> " ++ f.path else f.path
          | none => f.path
        ("--- " ++ header ++ "\n" ++ truncated) ::
          compressDiffsAux rest (totalLines + emitted)

/-- Models compressDiffs from src/lib/diff-parser.ts. -/
def compressDiffs (files : List FileDiff) : String :=
  jsJoin "\n\n" (compressDiffsAux files 0)

/-- Per-file count of lines of the original diff text reproduced in the
compressDiffs output: the head and tail slices kept by truncateDiff, or the
whole diff when it fits the file budget.  Placeholder lines for deleted and
omitted files, the per-file path header lines and the single omission-marker
line reproduce no diff content and contribute 0.  The recursion carries the
same totalLines accumulator as `compressDiffsAux`. -/
def contentContributions : List FileDiff → Nat → List Nat
  | [], _ => []
  | f :: rest, totalLines =>
    if f.status = FileStatus.deleted then
      0 :: contentContributions rest totalLines
    else
      let remainingBudget : Int := (MAX_TOTAL_DIFF_LINES : Int) - (totalLines : Int)
      let fileBudget : Int := min (MAX_LINES_PER_FILE : Int) remainingBudget
      if fileBudget ≤ 0 then
        0 :: contentContributions rest totalLines
      else
        let truncated := truncateDiff f.diff fileBudget.toNat
        let emitted := (splitNl truncated).length
        min (splitNl f.diff).length fileBudget.toNat ::
          contentContributions rest (totalLines + emitted)

/- Facts about the parser. -/

theorem parseLoop_conservation (blocks : List String) :
    (parseLoop blocks).totalAdditions =
      ((parseLoop blocks).files.map (fun f => f.additions)).sum
    ∧ (parseLoop blocks).totalDeletions =
      ((parseLoop blocks).files.map (fun f => f.deletions)).sum := by
  induction blocks with
  | nil => simp [parseLoop]
  | cons b rest ih =>
    simp only [parseLoop]
    cases parseBlock b with
    | none => simpa using ih
    | some fd => simp [ih.1, ih.2]

/-- C4: for every diff input string, the ParseResult returned by
parseUnifiedDiff has totalAdditions equal to the sum of the per-file addition
counts over all records and totalDeletions equal to the sum of the per-file
deletion counts, and every per-file count is nonnegative. -/
theorem parseUnifiedDiff_count_conservation (s : String) :
    (parseUnifiedDiff s).totalAdditions =
      ((parseUnifiedDiff s).files.map (fun f => f.additions)).sum
    ∧ (parseUnifiedDiff s).totalDeletions =
      ((parseUnifiedDiff s).files.map (fun f => f.deletions)).sum
    ∧ ((parseUnifiedDiff s).files.all
        (fun f => decide (0 ≤ f.additions) && decide (0 ≤ f.deletions))) = true := by
  refine ⟨(parseLoop_conservation _).1, (parseLoop_conservation _).2, ?_⟩
  simp [List.all_eq_true]

/- Facts about the classifier. -/

theorem classifyFiles_excluded_eq (files : List FileDiff) :
    (classifyFiles files).excluded = files.filter (fun f => isExcludedPath f.path) := by
  induction files with
  | nil => simp [classifyFiles]
  | cons f rest ih =>
    simp only [classifyFiles, List.filter_cons]
    by_cases h1 : isExcludedPath f.path
    · simp [h1, ih]
    · by_cases h2 : isSummaryOnlyPath f.path <;> simp [h1, h2, ih]

theorem classifyFiles_summarized_eq (files : List FileDiff) :
    (classifyFiles files).summarized =
      files.filter (fun f => !(isExcludedPath f.path) && isSummaryOnlyPath f.path) := by
  induction files with
  | nil => simp [classifyFiles]
  | cons f rest ih =>
    simp only [classifyFiles, List.filter_cons]
    by_cases h1 : isExcludedPath f.path
    · simp [h1, ih]
    · by_cases h2 : isSummaryOnlyPath f.path <;> simp [h1, h2, ih]

theorem classifyFiles_included_eq (files : List FileDiff) :
    (classifyFiles files).included =
      files.filter (fun f => !(isExcludedPath f.path) && !(isSummaryOnlyPath f.path)) := by
  induction files with
  | nil => simp [classifyFiles]
  | cons f rest ih =>
    simp only [classifyFiles, List.filter_cons]
    by_cases h1 : isExcludedPath f.path
    · simp [h1, ih]
    · by_cases h2 : isSummaryOnlyPath f.path <;> simp [h1, h2, ih]

theorem classifyFiles_length (files : List FileDiff) :
    (classifyFiles files).included.length + (classifyFiles files).summarized.length +
      (classifyFiles files).excluded.length = files.length := by
  induction files with
  | nil => simp [classifyFiles]
  | cons f rest ih =>
    simp only [classifyFiles]
    by_cases h1 : isExcludedPath f.path
    · simp only [h1, if_true, List.length_cons]
      omega
    · by_cases h2 : isSummaryOnlyPath f.path <;>
        simp only [h1, h2, if_true, if_false, Bool.false_eq_true, List.length_cons] <;>
        omega

/-- C5: classifyFiles partitions every record list into the three subsets with
nothing missing or duplicated (the lengths sum to the input length and each
subset is the order-preserving selection of the input by its classification
predicate, exclusion tested before the summary-only tier), and each subset is
a sublist of the input. -/
theorem classifyFiles_partition (files : List FileDiff) :
    (classifyFiles files).included.length + (classifyFiles files).summarized.length +
        (classifyFiles files).excluded.length = files.length
    ∧ (classifyFiles files).excluded = files.filter (fun f => isExcludedPath f.path)
    ∧ (classifyFiles files).summarized =
        files.filter (fun f => !(isExcludedPath f.path) && isSummaryOnlyPath f.path)
    ∧ (classifyFiles files).included =
        files.filter (fun f => !(isExcludedPath f.path) && !(isSummaryOnlyPath f.path))
    ∧ (classifyFiles files).included.Sublist files
    ∧ (classifyFiles files).summarized.Sublist files
    ∧ (classifyFiles files).excluded.Sublist files := by
  refine ⟨classifyFiles_length files, classifyFiles_excluded_eq files,
    classifyFiles_summarized_eq files, classifyFiles_included_eq files, ?_, ?_, ?_⟩
  · rw [classifyFiles_included_eq]
    exact List.filter_sublist files
  · rw [classifyFiles_summarized_eq]
    exact List.filter_sublist files
  · rw [classifyFiles_excluded_eq]
    exact List.filter_sublist files

/-- C6: in parseUnifiedDiff, the change-kind checks apply in the order added,
deleted, renamed (rename marker present or differing paths), else modified;
in particular a block carrying a new-file marker together with a different
recorded old path parses as added, not renamed. -/
theorem determineStatus_order (d o n : String) :
    (jsIncludes d "new file mode" = true → determineStatus d o n = FileStatus.added)
    ∧ (jsIncludes d "new file mode" = false →
        jsIncludes d "deleted file mode" = true →
        determineStatus d o n = FileStatus.deleted)
    ∧ (jsIncludes d "new file mode" = false →
        jsIncludes d "deleted file mode" = false →
        (jsIncludes d "rename from" = true ∨ o ≠ n) →
        determineStatus d o n = FileStatus.renamed)
    ∧ (jsIncludes d "new file mode" = false →
        jsIncludes d "deleted file mode" = false →
        jsIncludes d "rename from" = false → o = n →
        determineStatus d o n = FileStatus.modified)
    ∧ (parseUnifiedDiff
          "diff --git a/old.ts b/new.ts\nnew file mode 100644\n--- /dev/null\n+++ b/new.ts\n+hello").files.map
        (fun f => (f.path, f.oldPath, f.status)) =
      [("new.ts", none, FileStatus.added)] := by
  refine ⟨?_, ?_, ?_, ?_, by decide⟩
  · intro h1
    simp [determineStatus, h1]
  · intro h1 h2
    simp [determineStatus, h1, h2]
  · intro h1 h2 h3
    rcases h3 with h3 | h3 <;> simp [determineStatus, h1, h2, h3]
  · intro h1 h2 h3 h4
    simp [determineStatus, h1, h2, h3, h4]

/-- Witness for `determineStatus_order` at concrete inputs. -/
theorem determineStatus_order_witness :
    (jsIncludes "new file mode 100644\nrename from a" "new file mode" = true)
    ∧ determineStatus "new file mode 100644\nrename from a" "old.ts" "new.ts" =
        FileStatus.added :=
  ⟨by decide, (determineStatus_order "new file mode 100644\nrename from a"
    "old.ts" "new.ts").1 (by decide)⟩

/- Facts about the compressor. -/

theorem splitNl_mem_no_nl (s : String) : ∀ p ∈ splitNl s, '\n' ∉ p.data := by
  intro p hp
  unfold splitNl at hp
  rcases List.mem_map.mp hp with ⟨l, hl, rfl⟩
  exact splitNlChars_no_newline _ _ hl

theorem truncateDiff_of_le (d : String) (m : Nat) (h : (splitNl d).length ≤ m) :
    truncateDiff d m = d := by
  simp [truncateDiff, h]

theorem truncateDiff_of_gt (d : String) (m : Nat) (h : m < (splitNl d).length) :
    truncateDiff d m = jsJoin "\n"
      ((splitNl d).take (m * 7 / 10) ++
        ["... [" ++ toString ((splitNl d).length - m) ++ " lines omitted] ..."] ++
        jsSliceNeg (splitNl d) (m - m * 7 / 10)) := by
  rw [truncateDiff]
  simp only [Nat.not_le.mpr h, if_false]

theorem headLines_lt (m : Nat) (hm : 1 ≤ m) : m * 7 / 10 < m := by
  omega

/-- The line count of a truncated diff is at least the number of original
lines it keeps. -/
theorem content_le_emitted (d : String) (m : Nat) (hm : 1 ≤ m) :
    min (splitNl d).length m ≤ (splitNl (truncateDiff d m)).length := by
  by_cases h : (splitNl d).length ≤ m
  · rw [truncateDiff_of_le d m h]
    omega
  · push_neg at h
    rw [truncateDiff_of_gt d m h]
    set lines := splitNl d with hl
    set hd := m * 7 / 10 with hhd
    set tl := m - hd with htl
    have hhdlt : hd < m := headLines_lt m hm
    have htl1 : 1 ≤ tl := by omega
    have htlne : tl ≠ 0 := by omega
    set L := lines.take hd ++
      ["... [" ++ toString (lines.length - m) ++ " lines omitted] ..."] ++
      jsSliceNeg lines tl with hL
    have hLne : L ≠ [] := by
      simp [hL]
    have hlen := length_le_splitNl_jsJoin L hLne
    have hLlen : L.length = hd + 1 + tl := by
      simp only [hL, List.length_append, List.length_take, List.length_cons,
        List.length_nil, jsSliceNeg, htlne, if_false, List.length_drop]
      omega
    omega

theorem contentContributions_sum_le (files : List FileDiff) (T : Nat) :
    ((contentContributions files T).sum : Int) ≤
      max ((MAX_TOTAL_DIFF_LINES : Int) - (T : Int)) 0 := by
  induction files generalizing T with
  | nil => simp [contentContributions]
  | cons f rest ih =>
    by_cases hdel : f.status = FileStatus.deleted
    · simp only [contentContributions, hdel, if_true, List.sum_cons, Nat.zero_add]
      exact ih T
    · simp only [contentContributions, hdel, if_false]
      set b : Int := min (MAX_LINES_PER_FILE : Int)
        ((MAX_TOTAL_DIFF_LINES : Int) - (T : Int)) with hb
      by_cases hble : b ≤ 0
      · simp only [hble, if_true, List.sum_cons, Nat.zero_add]
        have hT : (MAX_TOTAL_DIFF_LINES : Int) - (T : Int) ≤ 0 := by
          simp only [hb, MAX_LINES_PER_FILE] at hble
          omega
        calc ((contentContributions rest T).sum : Int)
            ≤ max ((MAX_TOTAL_DIFF_LINES : Int) - (T : Int)) 0 := ih T
          _ ≤ max ((MAX_TOTAL_DIFF_LINES : Int) - (T : Int)) 0 := le_rfl
      · simp only [hble, if_false, List.sum_cons]
        push_neg at hble
        set emitted := (splitNl (truncateDiff f.diff b.toNat)).length with he
        set content := min (splitNl f.diff).length b.toNat with hc
        have hbn : 1 ≤ b.toNat := by omega
        have hemit : content ≤ emitted := content_le_emitted f.diff b.toNat hbn
        have hcb : (content : Int) ≤ b := by
          have h1 : content ≤ b.toNat := by
            simp only [hc]
            omega
          calc (content : Int) ≤ (b.toNat : Int) := by exact_mod_cast h1
            _ = b := Int.toNat_of_nonneg (le_of_lt hble)
        have hbT : b ≤ (MAX_TOTAL_DIFF_LINES : Int) - (T : Int) := min_le_right _ _
        have hrest := ih (T + emitted)
        rcases le_max_iff.mp hrest with hr | hr
        · apply le_max_iff.mpr
          left
          push_cast at hr ⊢
          omega
        · apply le_max_iff.mpr
          left
          push_cast at hr ⊢
          omega

theorem contentContributions_le_perfile (files : List FileDiff) (T : Nat) :
    (contentContributions files T).all
      (fun c => decide (c ≤ MAX_LINES_PER_FILE)) = true := by
  induction files generalizing T with
  | nil => simp [contentContributions]
  | cons f rest ih =>
    by_cases hdel : f.status = FileStatus.deleted
    · simp only [contentContributions, hdel, if_true, List.all_cons]
      simp [ih T]
    · simp only [contentContributions, hdel, if_false]
      set b : Int := min (MAX_LINES_PER_FILE : Int)
        ((MAX_TOTAL_DIFF_LINES : Int) - (T : Int)) with hb
      by_cases hble : b ≤ 0
      · simp only [hble, if_true, List.all_cons]
        simp [ih T]
      · simp only [hble, if_false, List.all_cons]
        have hcap : min (splitNl f.diff).length b.toNat ≤ MAX_LINES_PER_FILE := by
          have : b ≤ (MAX_LINES_PER_FILE : Int) := min_le_left _ _
          simp only [MAX_LINES_PER_FILE] at this ⊢
          omega
        simp [hcap, ih]

theorem contentContributions_length (files : List FileDiff) (T : Nat) :
    (contentContributions files T).length = files.length := by
  induction files generalizing T with
  | nil => simp [contentContributions]
  | cons f rest ih =>
    by_cases hdel : f.status = FileStatus.deleted
    · simp [contentContributions, hdel, ih]
    · simp only [contentContributions, hdel, if_false]
      by_cases hble : min (MAX_LINES_PER_FILE : Int)
          ((MAX_TOTAL_DIFF_LINES : Int) - (T : Int)) ≤ 0 <;>
        simp [hble, ih]

/-- C1: across any list of included file records the compressor reproduces at
most 1500 lines of original diff content in total (placeholders for deleted
and omitted files count for nothing), and no single file contributes more than
50 content lines; the contribution accounting walks the same accumulator as
compressDiffs and covers every file. -/
theorem compressDiffs_budget (files : List FileDiff) :
    (contentContributions files 0).sum ≤ MAX_TOTAL_DIFF_LINES
    ∧ (contentContributions files 0).all
        (fun c => decide (c ≤ MAX_LINES_PER_FILE)) = true
    ∧ (contentContributions files 0).length = files.length
    ∧ compressDiffs files = jsJoin "\n\n" (compressDiffsAux files 0) := by
  refine ⟨?_, contentContributions_le_perfile files 0,
    contentContributions_length files 0, rfl⟩
  have h := contentContributions_sum_le files 0
  simp only [Nat.cast_zero, sub_zero] at h
  have h2 : ((contentContributions files 0).sum : Int) ≤ (MAX_TOTAL_DIFF_LINES : Int) := by
    calc ((contentContributions files 0).sum : Int)
        ≤ max ((MAX_TOTAL_DIFF_LINES : Int)) 0 := h
      _ = (MAX_TOTAL_DIFF_LINES : Int) := by simp [MAX_TOTAL_DIFF_LINES]
  exact_mod_cast h2

/-- C7: a deleted file record makes compressDiffs emit exactly the one-line
deletion placeholder, none of the diff body, and leaves the totalLines
accumulator unchanged for the remaining files; the file contributes zero
content lines. -/
theorem compressDiffs_deleted_placeholder (f : FileDiff) (rest : List FileDiff)
    (T : Nat) (h : f.status = FileStatus.deleted) :
    compressDiffsAux (f :: rest) T =
      ("--- " ++ f.path ++ " (deleted)") :: compressDiffsAux rest T
    ∧ contentContributions (f :: rest) T = 0 :: contentContributions rest T
    ∧ ('\n' ∉ f.path.data →
        splitNl ("--- " ++ f.path ++ " (deleted)") = ["--- " ++ f.path ++ " (deleted)"]) := by
  refine ⟨by simp [compressDiffsAux, h], by simp [contentContributions, h], ?_⟩
  intro hnl
  apply splitNl_no_nl_of_no_nl
  rw [data_append3]
  intro hmem
  rcases List.mem_append.mp hmem with hmem | hmem
  · rcases List.mem_append.mp hmem with hmem | hmem
    · revert hmem
      decide
    · exact hnl hmem
  · revert hmem
    decide

/-- Witness for `compressDiffs_deleted_placeholder` at a concrete record. -/
theorem compressDiffs_deleted_placeholder_witness :
    (⟨"a.ts", none, FileStatus.deleted, "+x", 0, 0⟩ : FileDiff).status = FileStatus.deleted
    ∧ compressDiffsAux [⟨"a.ts", none, FileStatus.deleted, "+x", 0, 0⟩] 0 =
        ("--- " ++ ("a.ts" : String) ++ " (deleted)") :: compressDiffsAux [] 0 :=
  ⟨rfl, (compressDiffs_deleted_placeholder
    ⟨"a.ts", none, FileStatus.deleted, "+x", 0, 0⟩ [] 0 rfl).1⟩

/-- C3: a single non-deleted 200-line file alone in the included set is
compressed to exactly 50 lines plus one omission-marker line: the first 35
lines (70 percent of the 50-line budget) and the last 15 lines (30 percent) of
the original text, with the marker stating that 150 lines were omitted. -/
theorem truncateDiff_oversized (path d : String) (adds dels : Nat)
    (h : (splitNl d).length = 200) :
    truncateDiff d 50 = jsJoin "\n"
      ((splitNl d).take 35 ++ ["... [150 lines omitted] ..."] ++ (splitNl d).drop 185)
    ∧ splitNl (truncateDiff d 50) =
        (splitNl d).take 35 ++ ["... [150 lines omitted] ..."] ++ (splitNl d).drop 185
    ∧ ((splitNl d).take 35 ++ ["... [150 lines omitted] ..."] ++
        (splitNl d).drop 185).length = 50 + 1
    ∧ compressDiffs [⟨path, none, FileStatus.modified, d, adds, dels⟩] =
        "--- " ++ path ++ "\n" ++ truncateDiff d 50 := by
  have hgt : 50 < (splitNl d).length := by omega
  have h35 : (50 * 7 / 10 : Nat) = 35 := by norm_num
  have hsl : jsSliceNeg (splitNl d) (50 - 50 * 7 / 10) = (splitNl d).drop 185 := by
    rw [h35]
    simp [jsSliceNeg, h]
  have hmk : ("... [" ++ toString ((splitNl d).length - 50) ++ " lines omitted] ...") =
      "... [150 lines omitted] ..." := by
    rw [h]
    rfl
  have heq : truncateDiff d 50 = jsJoin "\n"
      ((splitNl d).take 35 ++ ["... [150 lines omitted] ..."] ++ (splitNl d).drop 185) := by
    rw [truncateDiff_of_gt d 50 hgt, h35, hsl, hmk]
  have hlen : ((splitNl d).take 35 ++ ["... [150 lines omitted] ..."] ++
      (splitNl d).drop 185).length = 50 + 1 := by
    simp only [List.length_append, List.length_take, List.length_cons,
      List.length_nil, List.length_drop, h]
    omega
  refine ⟨heq, ?_, hlen, ?_⟩
  · rw [heq]
    apply splitNl_jsJoin
    · simp
    · intro p hp
      rcases List.mem_append.mp hp with hp | hp
      · rcases List.mem_append.mp hp with hp | hp
        · exact splitNl_mem_no_nl d p (List.take_subset _ _ hp)
        · have : p = "... [150 lines omitted] ..." := by simpa using hp
          subst this
          decide
      · exact splitNl_mem_no_nl d p (List.drop_subset _ _ hp)
  · show jsJoin "\n\n" (compressDiffsAux [⟨path, none, FileStatus.modified, d, adds, dels⟩] 0) = _
    have hstat : (⟨path, none, FileStatus.modified, d, adds, dels⟩ : FileDiff).status ≠
        FileStatus.deleted := by simp
    simp only [compressDiffsAux, hstat, if_false]
    have hbud : ¬ (min (MAX_LINES_PER_FILE : Int)
        ((MAX_TOTAL_DIFF_LINES : Int) - ((0 : Nat) : Int)) ≤ 0) := by decide
    simp only [hbud, if_false]
    have htn : (min (MAX_LINES_PER_FILE : Int)
        ((MAX_TOTAL_DIFF_LINES : Int) - ((0 : Nat) : Int))).toNat = 50 := by decide
    rw [htn]
    rfl

set_option maxRecDepth 100000 in
/-- Witness for `truncateDiff_oversized` on a concrete 200-line diff text. -/
theorem truncateDiff_oversized_witness :
    (splitNl (jsJoin "\n" (List.replicate 200 "+x"))).length = 200
    ∧ truncateDiff (jsJoin "\n" (List.replicate 200 "+x")) 50 = jsJoin "\n"
        ((splitNl (jsJoin "\n" (List.replicate 200 "+x"))).take 35 ++
          ["... [150 lines omitted] ..."] ++
          (splitNl (jsJoin "\n" (List.replicate 200 "+x"))).drop 185) :=
  ⟨by decide, (truncateDiff_oversized "w.ts" (jsJoin "\n" (List.replicate 200 "+x"))
    0 0 (by decide)).1⟩

/- Semantic extractor, from src/lib/semantic.ts. -/

/-- Models the JavaScript word character class (backslash-w): ASCII letters,
digits and underscore. -/
def isWordChar (c : Char) : Bool :=
  ('a' ≤ c && c ≤ 'z') || ('A' ≤ c && c ≤ 'Z') || ('0' ≤ c && c ≤ '9') || c = '_'

/-- Models the JavaScript whitespace character class (backslash-s): ASCII
whitespace plus the Unicode space separators, the line separators, the no
break space, the narrow and medium spaces and the byte order mark. -/
def isJsSpace (c : Char) : Bool :=
  c = ' ' || c = '\t' || c = '\n' || c = '\r' || c.toNat = 11 || c.toNat = 12 ||
  c.toNat = 0xa0 || c.toNat = 0x1680 || (0x2000 ≤ c.toNat && c.toNat ≤ 0x200a) ||
  c.toNat = 0x2028 || c.toNat = 0x2029 || c.toNat = 0x202f || c.toNat = 0x205f ||
  c.toNat = 0x3000 || c.toNat = 0xfeff

/-- Consumes a literal at the front of the character list, as a regex literal
does. -/
def litP (pat : String) (cs : List Char) : Option (List Char) :=
  if pat.data.isPrefixOf cs then some (cs.drop pat.data.length) else none

/-- Consumes one or more whitespace characters, greedily; the regex piece
backslash-s-plus.  Greedy maximal munch is exact for the patterns modelled
here because each run is followed by a literal that no whitespace character
starts. -/
def wsPlus (cs : List Char) : Option (List Char) :=
  match cs with
  | c :: rest => if isJsSpace c then some (rest.dropWhile isJsSpace) else none
  | [] => none

/-- Consumes a maximal nonempty word-character run and captures it; the regex
capture group of backslash-w-plus.  Maximal munch is exact because each use is
followed by a literal or whitespace, never by a word character. -/
def wordPlus (cs : List Char) : Option (String × List Char) :=
  let w := cs.takeWhile isWordChar
  if w.isEmpty then none else some (⟨w⟩, cs.dropWhile isWordChar)

/-- Match at one position for the function-declaration regex of
extractSemantics: the keyword alternation (the two branches cannot both apply
at one position), mandatory whitespace, the captured name, optional
whitespace, then an opening parenthesis. -/
def matchFunctionDecl (cs : List Char) : Option (String × List Char) := do
  let r1 ← litP "function" cs <|> litP "async function" cs
  let r2 ← wsPlus r1
  let (name, r3) ← wordPlus r2
  let r4 := r3.dropWhile isJsSpace
  let r5 ← litP "(" r4
  pure (name, r5)

/-- Match at one position for the binding-to-function-expression regex:
const, let or var, whitespace, the captured name, an equals sign, an optional
async keyword, then an opening parenthesis. -/
def matchConstParen (cs : List Char) : Option (String × List Char) := do
  let r1 ← litP "const" cs <|> litP "let" cs <|> litP "var" cs
  let r2 ← wsPlus r1
  let (name, r3) ← wordPlus r2
  let r4 := r3.dropWhile isJsSpace
  let r5 ← litP "=" r4
  let r6 := r5.dropWhile isJsSpace
  let r7 ← (do
    let a ← litP "async" r6
    litP "(" (a.dropWhile isJsSpace)) <|> litP "(" r6
  pure (name, r7)

/-- Tail of the arrow-function regex after the optional async keyword: an
optional word, optional whitespace, then the arrow. -/
def arrowTail (cs : List Char) : Option (List Char) :=
  litP "=>" ((cs.dropWhile isWordChar).dropWhile isJsSpace)

/-- Match at one position for the binding-to-arrow-function regex. -/
def matchConstArrow (cs : List Char) : Option (String × List Char) := do
  let r1 ← litP "const" cs <|> litP "let" cs <|> litP "var" cs
  let r2 ← wsPlus r1
  let (name, r3) ← wordPlus r2
  let r4 := r3.dropWhile isJsSpace
  let r5 ← litP "=" r4
  let r6 := r5.dropWhile isJsSpace
  let r7 ← (do
    let a ← litP "async" r6
    arrowTail (a.dropWhile isJsSpace)) <|> arrowTail r6
  pure (name, r7)

/-- Match at one position for the type-or-interface declaration regex. -/
def matchTypeDecl (cs : List Char) : Option (String × List Char) := do
  let r1 ← litP "interface" cs <|> litP "type" cs
  let r2 ← wsPlus r1
  wordPlus r2

/-- Match at one position for the class declaration regex. -/
def matchClassDecl (cs : List Char) : Option (String × List Char) := do
  let r1 ← litP "class" cs
  let r2 ← wsPlus r1
  wordPlus r2

/-- Match at one position for the export declaration regex: the export
keyword, whitespace, an optional default keyword, a declaration keyword from
the alternation (no two branch literals can apply at one position), whitespace,
then the captured name. -/
def matchExportDecl (cs : List Char) : Option (String × List Char) := do
  let r1 ← litP "export" cs
  let r2 ← wsPlus r1
  let r3 := ((do
    let a ← litP "default" r2
    wsPlus a) : Option (List Char)).getD r2
  let r4 ← litP "function" r3 <|> litP "const" r3 <|> litP "class" r3 <|>
    litP "interface" r3 <|> litP "type" r3 <|> litP "async function" r3
  let r5 ← wsPlus r4
  wordPlus r5

/-- Models the JavaScript matchAll iteration with the map onto the first
capture group: the engine looks for the leftmost match, reports its capture,
and resumes right after the matched text (or one character further for an
empty match, which the patterns here cannot produce). -/
def scanAll (step : List Char → Option (String × List Char)) :
    List Char → List String
  | [] => []
  | c :: cs =>
    match step (c :: cs) with
    | some (cap, rest) =>
      cap :: scanAll step ((c :: cs).drop (max ((c :: cs).length - rest.length) 1))
    | none => scanAll step cs
termination_by l => l.length
decreasing_by
  · simp only [List.length_drop, List.length_cons]
    omega
  · simp

/-- Models extractAddedCode from src/lib/semantic.ts: the added lines of a
diff, markers stripped, rejoined with newlines. -/
def extractAddedCode (diff : String) : String :=
  jsJoin "\n"
    (((splitNl diff).filter (fun l => jsStartsWith l "+" && !(jsStartsWith l "+++"))).map
      (fun l => jsSliceFrom l 1))

/-- The allAddedCode value of extractSemantics: the added code of every
non-deleted file, concatenated in order with newlines. -/
def allAddedCode (files : List FileDiff) : String :=
  jsJoin "\n" ((files.filter (fun f => decide (f.status ≠ FileStatus.deleted))).map
    (fun f => extractAddedCode f.diff))

/-- The raw function-name match list of extractSemantics: the three matchAll
spreads over the added code, concatenated before deduplication. -/
def functionMatches (code : String) : List String :=
  scanAll matchFunctionDecl code.data ++ scanAll matchConstParen code.data ++
    scanAll matchConstArrow code.data

/-- The raw type-name match list of extractSemantics. -/
def typeMatches (code : String) : List String :=
  scanAll matchTypeDecl code.data

/-- The raw class-name match list of extractSemantics. -/
def classMatches (code : String) : List String :=
  scanAll matchClassDecl code.data

/-- The raw export-name match list of extractSemantics. -/
def exportMatches (code : String) : List String :=
  scanAll matchExportDecl code.data

/-- Models extractSemantics from src/lib/semantic.ts. -/
def extractSemantics (files : List FileDiff) : SemanticInfo :=
  let code := allAddedCode files
  { functions := jsSetDedup (functionMatches code)
    types := jsSetDedup (typeMatches code)
    exports := jsSetDedup (exportMatches code)
    classes := jsSetDedup (classMatches code) }

/- Facts about the deduplication. -/

theorem jsSetDedup_sublist (l : List String) : (jsSetDedup l).Sublist l := by
  induction l using jsSetDedup.induct with
  | case1 => simp [jsSetDedup]
  | case2 x xs ih =>
    rw [jsSetDedup]
    exact List.Sublist.cons₂ x (ih.trans (List.filter_sublist xs))

theorem jsSetDedup_mem (l : List String) (a : String) :
    a ∈ jsSetDedup l ↔ a ∈ l := by
  constructor
  · exact fun h => (jsSetDedup_sublist l).subset h
  · induction l using jsSetDedup.induct with
    | case1 => simp
    | case2 x xs ih =>
      intro h
      rw [jsSetDedup]
      rcases List.mem_cons.mp h with h | h
      · simp [h]
      · by_cases hx : a = x
        · simp [hx]
        · right
          exact ih (List.mem_filter.mpr ⟨h, by simp [hx]⟩)

theorem jsSetDedup_nodup (l : List String) : (jsSetDedup l).Nodup := by
  induction l using jsSetDedup.induct with
  | case1 => simp [jsSetDedup]
  | case2 x xs ih =>
    rw [jsSetDedup]
    refine List.nodup_cons.mpr ⟨?_, ih⟩
    intro hmem
    have := (jsSetDedup_mem _ x).mp hmem
    rcases List.mem_filter.mp this with ⟨-, hne⟩
    simp at hne

/-- Index of the first occurrence of an element in a list (length of the list
when absent). -/
def firstIdx (a : String) : List String → Nat
  | [] => 0
  | x :: xs => if x = a then 0 else firstIdx a xs + 1

theorem firstIdx_filter_mono (p : String → Bool) :
    ∀ (xs : List String) (a b : String), a ∈ xs.filter p → b ∈ xs.filter p →
      firstIdx a (xs.filter p) < firstIdx b (xs.filter p) →
      firstIdx a xs < firstIdx b xs := by
  intro xs
  induction xs with
  | nil => simp
  | cons h xs ih =>
    intro a b ha hb hlt
    by_cases hp : p h
    · rw [List.filter_cons_of_pos hp] at ha hb hlt
      by_cases hha : h = a
      · have hhb : ¬ h = b := by
          intro hhb
          rw [firstIdx, if_pos hha, firstIdx, if_pos hhb] at hlt
          omega
        rw [firstIdx, if_pos hha]
        rw [firstIdx, if_neg hhb]
        omega
      · by_cases hhb : h = b
        · rw [firstIdx, if_neg hha, firstIdx, if_pos hhb] at hlt
          omega
        · rw [firstIdx, if_neg hha, firstIdx, if_neg hhb] at hlt
          have ha2 : a ∈ xs.filter p := by
            rcases List.mem_cons.mp ha with h1 | h1
            · exact absurd h1.symm hha
            · exact h1
          have hb2 : b ∈ xs.filter p := by
            rcases List.mem_cons.mp hb with h1 | h1
            · exact absurd h1.symm hhb
            · exact h1
          rw [firstIdx, if_neg hha, firstIdx, if_neg hhb]
          have := ih a b ha2 hb2 (by omega)
          omega
    · rw [List.filter_cons_of_neg hp] at ha hb hlt
      have hha : ¬ h = a := by
        intro hha
        subst hha
        exact hp (List.of_mem_filter ha)
      have hhb : ¬ h = b := by
        intro hhb
        subst hhb
        exact hp (List.of_mem_filter hb)
      rw [firstIdx, if_neg hha, firstIdx, if_neg hhb]
      have := ih a b ha hb hlt
      omega

theorem jsSetDedup_firstIdx_pairwise (l : List String) :
    (jsSetDedup l).Pairwise (fun a b => firstIdx a l < firstIdx b l) := by
  induction l using jsSetDedup.induct with
  | case1 => simp [jsSetDedup]
  | case2 x xs ih =>
    rw [jsSetDedup]
    refine List.pairwise_cons.mpr ⟨?_, ?_⟩
    · intro b hb
      have hbf : b ∈ xs.filter (fun y => y ≠ x) :=
        ((jsSetDedup_mem _ b).mp hb)
      have hbx : ¬ x = b := by
        rcases List.mem_filter.mp hbf with ⟨-, hne⟩
        simp at hne
        exact fun hc => hne hc.symm
      rw [firstIdx, if_pos rfl, firstIdx, if_neg hbx]
      omega
    · refine List.Pairwise.imp_of_mem ?_ ih
      intro a b ha hb hlt
      have haf : a ∈ xs.filter (fun y => y ≠ x) := (jsSetDedup_mem _ a).mp ha
      have hbf : b ∈ xs.filter (fun y => y ≠ x) := (jsSetDedup_mem _ b).mp hb
      have hxa : ¬ x = a := by
        rcases List.mem_filter.mp haf with ⟨-, hne⟩
        simp at hne
        exact fun hc => hne hc.symm
      have hxb : ¬ x = b := by
        rcases List.mem_filter.mp hbf with ⟨-, hne⟩
        simp at hne
        exact fun hc => hne hc.symm
      rw [firstIdx, if_neg hxa, firstIdx, if_neg hxb]
      have := firstIdx_filter_mono (fun y => y ≠ x) xs a b haf hbf hlt
      omega

/-- C8: every identifier list produced by extractSemantics is duplicate-free,
keeps only identifiers from the corresponding raw match list over the added
code, lists them in first-occurrence order, and depends only on the
non-deleted files. -/
theorem extractSemantics_dedup (files : List FileDiff) :
    (extractSemantics files).functions.Nodup
    ∧ (extractSemantics files).types.Nodup
    ∧ (extractSemantics files).exports.Nodup
    ∧ (extractSemantics files).classes.Nodup
    ∧ (extractSemantics files).functions.Sublist (functionMatches (allAddedCode files))
    ∧ (extractSemantics files).types.Sublist (typeMatches (allAddedCode files))
    ∧ (extractSemantics files).exports.Sublist (exportMatches (allAddedCode files))
    ∧ (extractSemantics files).classes.Sublist (classMatches (allAddedCode files))
    ∧ (∀ a, a ∈ (extractSemantics files).functions ↔
        a ∈ functionMatches (allAddedCode files))
    ∧ (∀ a, a ∈ (extractSemantics files).types ↔ a ∈ typeMatches (allAddedCode files))
    ∧ (∀ a, a ∈ (extractSemantics files).exports ↔
        a ∈ exportMatches (allAddedCode files))
    ∧ (∀ a, a ∈ (extractSemantics files).classes ↔
        a ∈ classMatches (allAddedCode files))
    ∧ (extractSemantics files).functions.Pairwise
        (fun a b => firstIdx a (functionMatches (allAddedCode files)) <
          firstIdx b (functionMatches (allAddedCode files)))
    ∧ (extractSemantics files).types.Pairwise
        (fun a b => firstIdx a (typeMatches (allAddedCode files)) <
          firstIdx b (typeMatches (allAddedCode files)))
    ∧ (extractSemantics files).exports.Pairwise
        (fun a b => firstIdx a (exportMatches (allAddedCode files)) <
          firstIdx b (exportMatches (allAddedCode files)))
    ∧ (extractSemantics files).classes.Pairwise
        (fun a b => firstIdx a (classMatches (allAddedCode files)) <
          firstIdx b (classMatches (allAddedCode files)))
    ∧ extractSemantics files =
        extractSemantics (files.filter (fun f => decide (f.status ≠ FileStatus.deleted))) := by
  refine ⟨jsSetDedup_nodup _, jsSetDedup_nodup _, jsSetDedup_nodup _, jsSetDedup_nodup _,
    jsSetDedup_sublist _, jsSetDedup_sublist _, jsSetDedup_sublist _, jsSetDedup_sublist _,
    fun a => jsSetDedup_mem _ a, fun a => jsSetDedup_mem _ a,
    fun a => jsSetDedup_mem _ a, fun a => jsSetDedup_mem _ a,
    jsSetDedup_firstIdx_pairwise _, jsSetDedup_firstIdx_pairwise _,
    jsSetDedup_firstIdx_pairwise _, jsSetDedup_firstIdx_pairwise _, ?_⟩
  have hfilter : (files.filter (fun f => decide (f.status ≠ FileStatus.deleted))).filter
      (fun f => decide (f.status ≠ FileStatus.deleted)) =
      files.filter (fun f => decide (f.status ≠ FileStatus.deleted)) := by
    rw [List.filter_filter]
    simp
  unfold extractSemantics allAddedCode
  rw [hfilter]

/- Prompt assembler, from src/lib/ai.ts. -/

/-- The commit type catalog COMMIT_TYPES from src/lib/ai.ts, as key and
description pairs in the insertion order that Object.entries yields. -/
def COMMIT_TYPES : List (String × String) :=
  [ ("build", "Build system or external dependency changes")
  , ("chore", "Maintenance tasks, no production code change")
  , ("ci", "CI/CD configuration changes")
  , ("docs", "Documentation only changes")
  , ("feat", "A new feature for the user")
  , ("fix", "A bug fix")
  , ("perf", "Performance improvements")
  , ("refactor", "Code restructuring without changing behavior")
  , ("revert", "Reverting a previous commit")
  , ("style", "Formatting, whitespace, or style changes")
  , ("test", "Adding or updating tests") ]

/-- Models formatSemantics from src/lib/semantic.ts: the parts array as pushed
before the final join. -/
def formatSemanticsParts (semantics : SemanticInfo) : List String :=
  (if semantics.functions.length > 0 then
    ["Functions: " ++ jsJoin ", " (semantics.functions.take 10)] else [])
  ++ (if semantics.classes.length > 0 then
    ["Classes: " ++ jsJoin ", " (semantics.classes.take 5)] else [])
  ++ (if semantics.types.length > 0 then
    ["Types: " ++ jsJoin ", " (semantics.types.take 5)] else [])
  ++ (if semantics.exports.length > 0 then
    ["Exports: " ++ jsJoin ", " (semantics.exports.take 5)] else [])

/-- Models formatSemantics from src/lib/semantic.ts. -/
def formatSemantics (semantics : SemanticInfo) : String :=
  jsJoin "\n" (formatSemanticsParts semantics)

/-- The typeDescriptions value of buildPrompt: the rendered catalog lines. -/
def typeDescriptions : String :=
  jsJoin "\n" (COMMIT_TYPES.map (fun kv => "- " ++ kv.1 ++ ": " ++ kv.2))

/-- The fixed closing section pushed by buildPrompt: the commit type catalog,
the rules and the final instruction. -/
def commitTypesSection : String :=
  "## Commit Types\n" ++ typeDescriptions ++
    "\n\n## Rules\n- Max 72 characters\n- Format: type(scope): description OR type: description\n- Focus on WHY not WHAT\n\nIMPORTANT: Reply with ONLY the commit message. No explanations, no preamble, no \"Here\x27s\", no quotes. Just the commit message starting with the type."

/-- Models the sections array of buildPrompt from src/lib/ai.ts, in push
order.  The optional selectedType and recentCommits parameters follow the
JavaScript truthiness tests of the source: a missing or empty selected type
or an auto selection adds nothing, as does a missing or empty commit list;
a blank user note is skipped after trimming. -/
def buildPromptSections (userInput stats : String) (semantics : SemanticInfo)
    (fileList compressedDiffs : String) (selectedType : Option String)
    (recentCommits : Option (List String)) : List String :=
  ["Generate a conventional commit message."]
  ++ (match selectedType with
      | some t =>
        if t ≠ "" ∧ t ≠ "auto" then
          ["## User Selection\nThe user indicated this commit is most likely a \"" ++ t ++
            "\" (" ++ (List.lookup t COMMIT_TYPES).getD "" ++
            ").\nUse this type unless absolutely certain another type is more accurate.\nYou can still add a scope in parentheses, e.g., " ++
            t ++ "(scope): description."]
        else []
      | none => [])
  ++ (match recentCommits with
      | some cs =>
        if cs.length > 0 then
          ["## Recent Project Activity\nThese are the most recent commits in this repository, showing what the developer has been working on. Use this context to better understand how the current changes fit into the ongoing work:\n" ++
            jsJoin "\n" (cs.map (fun c => "- " ++ c))]
        else []
      | none => [])
  ++ (if userInput.trim ≠ "" then ["## User Note\n" ++ userInput.trim] else [])
  ++ ["## Stats\n" ++ stats]
  ++ (if formatSemantics semantics ≠ "" then
        ["## Code Changes\n" ++ formatSemantics semantics] else [])
  ++ (if fileList ≠ "" then ["## Files\n" ++ fileList] else [])
  ++ (if compressedDiffs ≠ "" then ["## Diff\n" ++ compressedDiffs] else [])
  ++ [commitTypesSection]

/-- Models buildPrompt from src/lib/ai.ts. -/
def buildPrompt (userInput stats : String) (semantics : SemanticInfo)
    (fileList compressedDiffs : String) (selectedType : Option String)
    (recentCommits : Option (List String)) : String :=
  jsJoin "\n\n" (buildPromptSections userInput stats semantics fileList
    compressedDiffs selectedType recentCommits)

/-- C2 counterexample: the commit label catalog has eleven entries, not
fourteen. -/
theorem commitTypes_not_fourteen :
    COMMIT_TYPES.length = 11 ∧ COMMIT_TYPES.length ≠ 14 := by
  decide

/-- C2 (amended): the fixed commit-label catalog appended by buildPrompt to
every generated prompt contains eleven recognized labels, pairwise distinct,
each paired with a nonempty human-readable description, and the closing
section rendering the catalog is in the sections list of every prompt. -/
theorem commitTypes_catalog (userInput stats : String) (semantics : SemanticInfo)
    (fileList compressedDiffs : String) (selectedType : Option String)
    (recentCommits : Option (List String)) :
    COMMIT_TYPES.length = 11
    ∧ (COMMIT_TYPES.map (fun kv => kv.1)).Nodup
    ∧ COMMIT_TYPES.all (fun kv => decide (kv.2 ≠ "")) = true
    ∧ commitTypesSection ∈ buildPromptSections userInput stats semantics fileList
        compressedDiffs selectedType recentCommits
    ∧ buildPrompt userInput stats semantics fileList compressedDiffs selectedType
        recentCommits = jsJoin "\n\n" (buildPromptSections userInput stats semantics
          fileList compressedDiffs selectedType recentCommits) := by
  refine ⟨by decide, by decide, by decide, ?_, rfl⟩
  unfold buildPromptSections
  simp [List.mem_append]

/-- C10: formatSemantics renders at most the first 10 function names and at
most the first 5 class, type and export names; identifiers beyond those caps
never influence the output. -/
theorem formatSemantics_caps (sem : SemanticInfo) :
    formatSemantics sem = formatSemantics
      ⟨sem.functions.take 10, sem.types.take 5, sem.exports.take 5, sem.classes.take 5⟩
    ∧ (sem.functions ≠ [] →
        ("Functions: " ++ jsJoin ", " (sem.functions.take 10)) ∈ formatSemanticsParts sem)
    ∧ (sem.classes ≠ [] →
        ("Classes: " ++ jsJoin ", " (sem.classes.take 5)) ∈ formatSemanticsParts sem)
    ∧ (sem.types ≠ [] →
        ("Types: " ++ jsJoin ", " (sem.types.take 5)) ∈ formatSemanticsParts sem)
    ∧ (sem.exports ≠ [] →
        ("Exports: " ++ jsJoin ", " (sem.exports.take 5)) ∈ formatSemanticsParts sem) := by
  refine ⟨?_, ?_, ?_, ?_, ?_⟩
  · unfold formatSemantics formatSemanticsParts
    simp only [List.length_take, List.take_take, Nat.min_self, lt_min_iff]
    norm_num
  · intro h
    unfold formatSemanticsParts
    have hl : sem.functions.length > 0 := List.length_pos.mpr h
    simp [hl]
  · intro h
    unfold formatSemanticsParts
    have hl : sem.classes.length > 0 := List.length_pos.mpr h
    simp [hl]
  · intro h
    unfold formatSemanticsParts
    have hl : sem.types.length > 0 := List.length_pos.mpr h
    simp [hl]
  · intro h
    unfold formatSemanticsParts
    have hl : sem.exports.length > 0 := List.length_pos.mpr h
    simp [hl]

/-- Witness for `formatSemantics_caps` at a concrete summary. -/
theorem formatSemantics_caps_witness :
    ((⟨["f"], [], [], []⟩ : SemanticInfo).functions ≠ [])
    ∧ ("Functions: " ++ jsJoin ", "
        ((⟨["f"], [], [], []⟩ : SemanticInfo).functions.take 10)) ∈
        formatSemanticsParts ⟨["f"], [], [], []⟩ :=
  ⟨by decide, (formatSemantics_caps ⟨["f"], [], [], []⟩).2.1 (by decide)⟩

/- Facts about the prompt section headers. -/

theorem stringExt (s t : String) (h : s.data = t.data) : s = t := by
  cases s
  cases t
  exact congrArg String.mk h

theorem stringAppend_assoc (a b c : String) : a ++ b ++ c = a ++ (b ++ c) := by
  apply stringExt
  simp [String.data_append, List.append_assoc]

theorem isPrefixOf_true_exists (p : List Char) :
    ∀ q, p.isPrefixOf q = true → ∃ s, p ++ s = q := by
  induction p with
  | nil =>
    intro q _
    exact ⟨q, rfl⟩
  | cons a as ih =>
    intro q h
    cases q with
    | nil => simp [List.isPrefixOf] at h
    | cons b bs =>
      rw [List.isPrefixOf, Bool.and_eq_true] at h
      obtain ⟨s, hs⟩ := ih bs h.2
      exact ⟨s, by rw [List.cons_append, hs, eq_of_beq h.1]⟩

theorem take_append_left (l t : List Char) (n : Nat) (h : n ≤ l.length) :
    (l ++ t).take n = l.take n := by
  rw [List.take_append_eq_append_take]
  simp [Nat.sub_eq_zero_of_le h]

theorem isPrefixOf_false_of_take_ne (p l t : List Char) (n : Nat)
    (hp : n ≤ p.length) (hl : n ≤ l.length) (hne : p.take n ≠ l.take n) :
    p.isPrefixOf (l ++ t) = false := by
  cases hx : p.isPrefixOf (l ++ t) with
  | false => rfl
  | true =>
    exfalso
    obtain ⟨s, hs⟩ := isPrefixOf_true_exists p (l ++ t) hx
    apply hne
    have h1 : (p ++ s).take n = p.take n := take_append_left p s n hp
    have h2 : (l ++ t).take n = l.take n := take_append_left l t n hl
    rw [hs, h2] at h1
    exact h1.symm

/-- A string starting with a literal whose first characters already differ
from the code-changes heading cannot carry that heading. -/
theorem jsStartsWith_CC_false (lit rest : String) (n : Nat)
    (hp : n ≤ ("## Code Changes" : String).data.length)
    (hl : n ≤ lit.data.length)
    (hne : ("## Code Changes" : String).data.take n ≠ lit.data.take n) :
    jsStartsWith (lit ++ rest) "## Code Changes" = false := by
  unfold jsStartsWith
  rw [String.data_append]
  exact isPrefixOf_false_of_take_ne _ _ _ n hp hl hne

set_option maxRecDepth 20000 in
/-- C9: when the semantic summary holds four empty lists, formatSemantics is
empty, the parts list is empty, and no section of the assembled prompt starts
with the code-changes heading: the section is omitted entirely rather than
emitted as an empty heading. -/
theorem emptySemantics_no_section (userInput stats fileList compressedDiffs : String)
    (selectedType : Option String) (recentCommits : Option (List String)) :
    formatSemantics ⟨[], [], [], []⟩ = ""
    ∧ formatSemanticsParts ⟨[], [], [], []⟩ = []
    ∧ (buildPromptSections userInput stats ⟨[], [], [], []⟩ fileList compressedDiffs
        selectedType recentCommits).all
        (fun s => !(jsStartsWith s "## Code Changes")) = true := by
  refine ⟨rfl, rfl, ?_⟩
  have hsem : formatSemantics (⟨[], [], [], []⟩ : SemanticInfo) = "" := rfl
  unfold buildPromptSections
  rw [hsem]
  rw [List.all_eq_true]
  intro s hs
  simp only [List.mem_append, List.mem_singleton] at hs
  rcases hs with ((((((((hs | hs) | hs) | hs) | hs) | hs) | hs) | hs) | hs)
  · subst hs
    decide
  · cases selectedType with
    | none => simp at hs
    | some t =>
      dsimp only at hs
      by_cases ht : t ≠ "" ∧ t ≠ "auto"
      · rw [if_pos ht] at hs
        simp only [List.mem_singleton] at hs
        subst hs
        rw [Bool.not_eq_true']
        simp only [stringAppend_assoc]
        exact jsStartsWith_CC_false _ _ 4 (by decide) (by decide) (by decide)
      · rw [if_neg ht] at hs
        simp at hs
  · cases recentCommits with
    | none => simp at hs
    | some cs =>
      dsimp only at hs
      by_cases hc : cs.length > 0
      · rw [if_pos hc] at hs
        simp only [List.mem_singleton] at hs
        subst hs
        rw [Bool.not_eq_true']
        exact jsStartsWith_CC_false _ _ 4 (by decide) (by decide) (by decide)
      · rw [if_neg hc] at hs
        simp at hs
  · by_cases hu : userInput.trim ≠ ""
    · rw [if_pos hu] at hs
      simp only [List.mem_singleton] at hs
      subst hs
      rw [Bool.not_eq_true']
      exact jsStartsWith_CC_false _ _ 4 (by decide) (by decide) (by decide)
    · rw [if_neg hu] at hs
      simp at hs
  · subst hs
    rw [Bool.not_eq_true']
    exact jsStartsWith_CC_false _ _ 4 (by decide) (by decide) (by decide)
  · simp at hs
  · by_cases hf : fileList ≠ ""
    · rw [if_pos hf] at hs
      simp only [List.mem_singleton] at hs
      subst hs
      rw [Bool.not_eq_true']
      exact jsStartsWith_CC_false _ _ 4 (by decide) (by decide) (by decide)
    · rw [if_neg hf] at hs
      simp at hs
  · by_cases hd : compressedDiffs ≠ ""
    · rw [if_pos hd] at hs
      simp only [List.mem_singleton] at hs
      subst hs
      rw [Bool.not_eq_true']
      exact jsStartsWith_CC_false _ _ 4 (by decide) (by decide) (by decide)
    · rw [if_neg hd] at hs
      simp at hs
  · subst hs
    rw [Bool.not_eq_true']
    unfold commitTypesSection
    simp only [stringAppend_assoc]
    exact jsStartsWith_CC_false _ _ 6 (by decide) (by decide) (by decide)
